import Mathlib

/-!
# Verification of `deleteFromGroups` (openvdb/points/PointDelete.h)

A shallow embedding of the point-deletion operation of
`src/openvdb/points/PointDelete.h`.  A point-data leaf ("region") is a
cumulative per-cell offset table together with attribute columns and
named boolean group columns; the tree holds a shared descriptor (the
declared group names) and a list of leaves.  Collaborators that live
outside the repository slice (the filter, the leaf/attribute-set
primitives and the group-metadata operations) are modelled from the
specification, as marked on their doc comments.
-/

namespace PointDelete

/-- A region (leaf node) of the point store: `offsets` is the cumulative
per-cell offset table (one entry per cell, `offsets[c]` = exclusive end
index of the points of cell `c`), `attrs` the ordinary attribute columns
(one list of values per column, indexed by point index) and `groups` the
named group columns (boolean membership per point index). -/
structure Leaf (V : Type) where
  offsets : List Nat
  attrs : List (List V)
  groups : List (String × List Bool)
  deriving DecidableEq, Repr

/-- The point store: the structure-wide descriptor's declared group
names, and the leaves. -/
structure PointDataTree (V : Type) where
  descriptorGroups : List String
  leaves : List (Leaf V)
  deriving DecidableEq, Repr

/-- Modelled from the spec: group membership lookup (backed by an
attribute column of the leaf's attribute set; the attribute-array
storage engine is not under `src/`).  A point belongs to group `g` iff
the leaf's column named `g` holds `true` at the point's index; a missing
column means no membership. -/
def memberOf {V : Type} (leaf : Leaf V) (g : String) (i : Nat) : Bool :=
  match leaf.groups.lookup g with
  | some col => col.getD i false
  | none => false

/-- Modelled from the spec: `MultiGroupFilter` (`IndexFilter.h`, not
under `src/`) — a point index matches iff it belongs to at least one
included group (or the include set is empty, meaning all points) and
belongs to none of the excluded groups. -/
def multiGroupMatch {V : Type} (incl excl : List String) (leaf : Leaf V) (i : Nat) : Bool :=
  (incl.isEmpty || incl.any (fun g => memberOf leaf g i)) &&
  excl.all (fun g => !memberOf leaf g i)

/-- `DeleteGroupsOp::operator()` reverses the include and exclude
arguments of the filter depending on the invert parameter:
`invert = true` gives include = the group names, empty exclude;
`invert = false` gives empty include, exclude = the group names. -/
def filterArgs (groupNames : List String) (invert : Bool) : List String × List String :=
  if invert then (groupNames, []) else ([], groupNames)

/-- Modelled from the spec: the per-cell index run of the offset table —
cell `c` owns the point indices from the previous cumulative offset up
to (excluding) its own entry; one list per cell, in fixed spatial
iteration order.  `prev` is the cumulative offset of the preceding
cell. -/
def cellListsAux (prev : Nat) : List Nat → List (List Nat)
  | [] => []
  | o :: rest => List.range' prev (o - prev) :: cellListsAux o rest

/-- The per-cell point-index runs of an offset table, first cell
starting at index 0. -/
def cellLists (offsets : List Nat) : List (List Nat) :=
  cellListsAux 0 offsets

/-- All point indices of a leaf, in cell order then ascending within
each cell (the iteration order of `beginIndexAll` without a filter). -/
def allIndices {V : Type} (leaf : Leaf V) : List Nat :=
  (cellLists leaf.offsets).flatten

/-- `iterCount(leaf->beginIndexAll())`: the number of point indices of
the leaf. -/
def leafPointCount {V : Type} (leaf : Leaf V) : Nat :=
  (allIndices leaf).length

/-- The surviving point indices of a leaf for a given include/exclude
filter: per cell in fixed order, the indices matching the filter in
ascending order (the iteration order of `beginIndexAll` /
`beginIndexVoxel` with the filter). -/
def leafSurvivors {V : Type} (incl excl : List String) (leaf : Leaf V) : List Nat :=
  ((cellLists leaf.offsets).map (fun cell =>
    cell.filter (multiGroupMatch incl excl leaf))).flatten

/-- The survivor list the deletion operator uses for group names `gs`
and invert flag `inv`. -/
def survivorsOf {V : Type} (gs : List String) (inv : Bool) (leaf : Leaf V) : List Nat :=
  leafSurvivors (filterArgs gs inv).1 (filterArgs gs inv).2 leaf

/-- The copy loop of `DeleteGroupsOp::operator()`: walk the cells in
fixed order; within each cell take the filtered (surviving) indices in
ascending order, advancing a single destination cursor shared across all
cells, and record the cursor's value after finishing each cell.  Returns
the surviving source indices in destination order, and the new
cumulative offset table (`endOffsets`). -/
def compactCells (pred : Nat → Bool) (cursor : Nat) :
    List (List Nat) → List Nat × List Nat
  | [] => ([], [])
  | cell :: rest =>
    let kept := cell.filter pred
    let cursor2 := cursor + kept.length
    let tail := compactCells pred cursor2 rest
    (kept ++ tail.1, cursor2 :: tail.2)

/-- Modelled from the spec: `clearAttributes` (`PointDataLeafNode.h`,
not under `src/`) — discard the region's attribute data, producing an
empty store with the same column layout, and empty every cell of the
offset table. -/
def clearAttributes {V : Type} (leaf : Leaf V) : Leaf V :=
  { offsets := leaf.offsets.map (fun _ => 0)
    attrs := leaf.attrs.map (fun _ => [])
    groups := leaf.groups.map (fun p => (p.1, ([] : List Bool))) }

/-- `DeleteGroupsOp::operator()`, per leaf: construct the filter from
the (possibly swapped) include/exclude arguments; skip leaves with no
points; if no point survives the filter, clear the leaf's attributes;
otherwise build a new attribute set of exactly the survivor count,
copying every column's value for each surviving index (in cell order,
ascending within each cell) to the next destination slot, and install
the new attribute set and the new offset table. -/
def deleteGroupsLeaf {V : Type} [Inhabited V]
    (groupNames : List String) (invert : Bool) (leaf : Leaf V) : Leaf V :=
  let args := filterArgs groupNames invert
  let size := leafPointCount leaf
  if size = 0 then leaf
  else
    let pred := multiGroupMatch args.1 args.2 leaf
    let newSize := (leafSurvivors args.1 args.2 leaf).length
    if newSize = 0 then clearAttributes leaf
    else
      let res := compactCells pred 0 (cellLists leaf.offsets)
      { offsets := res.2
        attrs := leaf.attrs.map (fun col => res.1.map (fun j => col.getD j default))
        groups := leaf.groups.map (fun p => (p.1, res.1.map (fun j => p.2.getD j false))) }

/-- `descriptor.hasGroup`: whether a group name is declared in the
structure-wide descriptor. -/
def hasGroup {V : Type} (t : PointDataTree V) (g : String) : Bool :=
  t.descriptorGroups.contains g

/-- Modelled from the spec: `dropGroups` (`PointGroup.h`, not under
`src/`) — remove each named group from the structure's global group
metadata (idempotent set removal, tolerant of already-removed names) and
drop its column from every region. -/
def dropGroups {V : Type} (t : PointDataTree V) (names : List String) : PointDataTree V :=
  { descriptorGroups := t.descriptorGroups.filter (fun g => !names.contains g)
    leaves := t.leaves.map (fun l =>
      { l with groups := l.groups.filter (fun p => !names.contains p.1) }) }

/-- `deleteFromGroups`: return immediately when the tree has no leaves;
resolve the requested names against the descriptor and return when none
exists; otherwise run the deletion operator over every leaf and, unless
inverted, drop the resolved groups from the global metadata
afterwards. -/
def deleteFromGroups {V : Type} [Inhabited V]
    (t : PointDataTree V) (groups : List String) (invert : Bool) : PointDataTree V :=
  if t.leaves.isEmpty then t
  else
    let availableGroups := groups.filter (fun g => hasGroup t g)
    if availableGroups.isEmpty then t
    else
      let t2 : PointDataTree V :=
        { descriptorGroups := t.descriptorGroups
          leaves := t.leaves.map (deleteGroupsLeaf availableGroups invert) }
      if invert then t2 else dropGroups t2 availableGroups

/-- `deleteFromGroup`: the single-group convenience form. -/
def deleteFromGroup {V : Type} [Inhabited V]
    (t : PointDataTree V) (group : String) (invert : Bool) : PointDataTree V :=
  deleteFromGroups t [group] invert

/-- Sequential region-by-region processing of the leaves in an arbitrary
index order: apply the per-leaf operator to one leaf at a time, in the
order given. -/
def seqCompact {V : Type} (f : Leaf V → Leaf V) (order : List Nat)
    (ls : List (Leaf V)) : List (Leaf V) :=
  order.foldl (fun acc i => acc.modify f i) ls

/-- A concrete example region (spec scenario 1): two cells with two
points each, one attribute column, group `A` containing points 0
and 2. -/
def exLeaf : Leaf Nat :=
  { offsets := [2, 4], attrs := [[10, 11, 12, 13]],
    groups := [("A", [true, false, true, false])] }

/-- A concrete example region with every point in group `A`. -/
def exLeafAll : Leaf Nat :=
  { offsets := [2, 4], attrs := [[10, 11, 12, 13]],
    groups := [("A", [true, true, true, true])] }

/-- A concrete example tree holding `exLeaf`, with `A` declared. -/
def exTree : PointDataTree Nat :=
  { descriptorGroups := ["A"], leaves := [exLeaf] }

/-! ## Helper lemmas -/

theorem chain_to_chain' {α : Type} {R : α → α → Prop} {a : α} {l : List α}
    (h : List.Chain R a l) : List.Chain' R l := by
  cases h with
  | nil => trivial
  | cons h1 h2 => exact h2

theorem getLast?_eq_some_getLastD {α : Type} (l : List α) (d : α) (h : l ≠ []) :
    l.getLast? = some (l.getLastD d) := by
  induction l generalizing d with
  | nil => exact absurd rfl h
  | cons a t ih =>
    cases t with
    | nil => rfl
    | cons b u =>
      rw [List.getLast?_cons_cons, List.getLastD_cons, ih a (by simp)]

theorem filter_flatten_eq {α : Type} (p : α → Bool) (L : List (List α)) :
    L.flatten.filter p = (L.map (fun l => l.filter p)).flatten := by
  induction L with
  | nil => rfl
  | cons a t ih => simp [List.filter_append, ih]

theorem compactCells_fst (p : Nat → Bool) (c : Nat) (cells : List (List Nat)) :
    (compactCells p c cells).1 = (cells.map (fun l => l.filter p)).flatten := by
  induction cells generalizing c with
  | nil => rfl
  | cons a t ih => simp [compactCells, ih]

theorem compactCells_snd_length (p : Nat → Bool) (c : Nat) (cells : List (List Nat)) :
    (compactCells p c cells).2.length = cells.length := by
  induction cells generalizing c with
  | nil => rfl
  | cons a t ih => simp [compactCells, ih]

theorem compactCells_snd_chain (p : Nat → Bool) (c : Nat) (cells : List (List Nat)) :
    List.Chain (· ≤ ·) c (compactCells p c cells).2 := by
  induction cells generalizing c with
  | nil => exact List.Chain.nil
  | cons a t ih => exact List.Chain.cons (Nat.le_add_right _ _) (ih _)

theorem compactCells_snd_getLastD (p : Nat → Bool) (c : Nat) (cells : List (List Nat)) :
    (compactCells p c cells).2.getLastD c
      = c + ((cells.map (fun l => l.filter p)).flatten).length := by
  induction cells generalizing c with
  | nil => rfl
  | cons a t ih =>
    simp only [compactCells, List.map_cons, List.flatten_cons, List.getLastD_cons,
      List.length_append]
    rw [ih]
    omega

theorem mem_leafSurvivors {V : Type} (incl excl : List String) (leaf : Leaf V) (p : Nat) :
    p ∈ leafSurvivors incl excl leaf ↔
      p ∈ allIndices leaf ∧ multiGroupMatch incl excl leaf p = true := by
  unfold leafSurvivors allIndices
  rw [← filter_flatten_eq, List.mem_filter]

theorem leafSurvivors_eq_filter {V : Type} (incl excl : List String) (leaf : Leaf V) :
    leafSurvivors incl excl leaf
      = (allIndices leaf).filter (multiGroupMatch incl excl leaf) := by
  unfold leafSurvivors allIndices
  rw [filter_flatten_eq]

/-- Unfolding of the per-leaf operator on the main path: when the leaf
has points and at least one survives, the result installs the offsets and
the per-column gathers produced by the copy loop. -/
theorem deleteGroupsLeaf_eq {V : Type} [Inhabited V] (gs : List String) (inv : Bool)
    (leaf : Leaf V) (h1 : leafPointCount leaf ≠ 0) (h2 : survivorsOf gs inv leaf ≠ []) :
    deleteGroupsLeaf gs inv leaf =
      { offsets := (compactCells (multiGroupMatch (filterArgs gs inv).1
                      (filterArgs gs inv).2 leaf) 0 (cellLists leaf.offsets)).2
        attrs := leaf.attrs.map (fun col =>
          (survivorsOf gs inv leaf).map (fun j => col.getD j default))
        groups := leaf.groups.map (fun q =>
          (q.1, (survivorsOf gs inv leaf).map (fun j => q.2.getD j false))) } := by
  have h2' : ¬ ((leafSurvivors (filterArgs gs inv).1 (filterArgs gs inv).2 leaf).length = 0) := by
    simpa [List.length_eq_zero, survivorsOf] using h2
  unfold deleteGroupsLeaf
  rw [if_neg h1, if_neg h2']
  simp only []
  rw [compactCells_fst]
  rfl

theorem cellListsAux_length (prev : Nat) (os : List Nat) :
    (cellListsAux prev os).length = os.length := by
  induction os generalizing prev with
  | nil => rfl
  | cons o rest ih => simp [cellListsAux, ih]

/-! ## Claim theorems -/

/-- C1: Completeness of non-inverted deletion — with `invert = false`
the survivor filter is built with an empty include set and the resolved
groups as the exclude set, every matching point is copied into the new
store, and a point of the region is among the survivors iff it belonged
to none of the requested groups. -/
theorem deleteFromGroups_completeness_noninverted {V : Type} [Inhabited V]
    (gs : List String) (leaf : Leaf V) (p : Nat)
    (h1 : leafPointCount leaf ≠ 0) (h2 : leafSurvivors [] gs leaf ≠ []) :
    (deleteGroupsLeaf gs false leaf).attrs
        = leaf.attrs.map (fun col =>
            (leafSurvivors [] gs leaf).map (fun j => col.getD j default))
      ∧ (p ∈ leafSurvivors [] gs leaf ↔
          p ∈ allIndices leaf ∧ ∀ g ∈ gs, memberOf leaf g p = false) := by
  constructor
  · rw [deleteGroupsLeaf_eq gs false leaf h1 h2]; rfl
  · rw [mem_leafSurvivors]
    simp [multiGroupMatch]

/-- C1 witness: the completeness theorem at a concrete region. -/
theorem deleteFromGroups_completeness_noninverted_witness :
    (deleteGroupsLeaf ["A"] false exLeaf).attrs
        = exLeaf.attrs.map (fun col =>
            (leafSurvivors [] ["A"] exLeaf).map (fun j => col.getD j default))
      ∧ (1 ∈ leafSurvivors [] ["A"] exLeaf ↔
          1 ∈ allIndices exLeaf ∧ ∀ g ∈ ["A"], memberOf exLeaf g 1 = false) :=
  deleteFromGroups_completeness_noninverted ["A"] exLeaf 1 (by decide) (by decide)

/-- C2: Inversion symmetry — with `invert = true` the survivor filter
has include = the resolved groups and empty exclude, every matching
point is copied into the new store, and within the region a point
survives the inverted call iff it does not survive the non-inverted
call, so the deleted sets are exact complements. -/
theorem deleteFromGroups_invert_complement {V : Type} [Inhabited V]
    (gs : List String) (leaf : Leaf V) (p : Nat) (hgs : gs ≠ [])
    (h1 : leafPointCount leaf ≠ 0) (h2 : leafSurvivors gs [] leaf ≠ [])
    (hp : p ∈ allIndices leaf) :
    (deleteGroupsLeaf gs true leaf).attrs
        = leaf.attrs.map (fun col =>
            (leafSurvivors gs [] leaf).map (fun j => col.getD j default))
      ∧ (p ∈ leafSurvivors gs [] leaf ↔ p ∉ leafSurvivors [] gs leaf) := by
  have hgs' : gs.isEmpty = false := by
    cases gs with
    | nil => exact absurd rfl hgs
    | cons a t => rfl
  constructor
  · rw [deleteGroupsLeaf_eq gs true leaf h1 h2]; rfl
  · rw [mem_leafSurvivors, mem_leafSurvivors]
    simp [multiGroupMatch, hp, hgs']

/-- C2 witness: the inversion-symmetry theorem at a concrete region. -/
theorem deleteFromGroups_invert_complement_witness :
    (deleteGroupsLeaf ["A"] true exLeaf).attrs
        = exLeaf.attrs.map (fun col =>
            (leafSurvivors ["A"] [] exLeaf).map (fun j => col.getD j default))
      ∧ (0 ∈ leafSurvivors ["A"] [] exLeaf ↔ 0 ∉ leafSurvivors [] ["A"] exLeaf) :=
  deleteFromGroups_invert_complement ["A"] exLeaf 0 (by decide) (by decide)
    (by decide) (by decide)

/-- C3: Offset-table consistency — for a region that still holds points
after compaction, the rebuilt offset table has exactly one entry per
cell (same length as the old table, whose entries are the cells in fixed
spatial order), is monotonically non-decreasing, and its last entry is
the survivor count, the region's new total point count. -/
theorem deleteFromGroups_offsets_consistency {V : Type} [Inhabited V]
    (gs : List String) (inv : Bool) (leaf : Leaf V)
    (h1 : leafPointCount leaf ≠ 0) (h2 : survivorsOf gs inv leaf ≠ []) :
    (deleteGroupsLeaf gs inv leaf).offsets.length = leaf.offsets.length
      ∧ List.Chain' (· ≤ ·) (deleteGroupsLeaf gs inv leaf).offsets
      ∧ (deleteGroupsLeaf gs inv leaf).offsets.getLast?
          = some (survivorsOf gs inv leaf).length := by
  rw [deleteGroupsLeaf_eq gs inv leaf h1 h2]
  have hcells : cellLists leaf.offsets ≠ [] := by
    intro hc
    exact h1 (by simp [leafPointCount, allIndices, hc])
  refine ⟨?_, ?_, ?_⟩
  · rw [compactCells_snd_length]
    exact cellListsAux_length 0 leaf.offsets
  · exact chain_to_chain' (compactCells_snd_chain _ 0 _)
  · have hne : (compactCells (multiGroupMatch (filterArgs gs inv).1
        (filterArgs gs inv).2 leaf) 0 (cellLists leaf.offsets)).2 ≠ [] := by
      intro hc
      have := compactCells_snd_length (multiGroupMatch (filterArgs gs inv).1
        (filterArgs gs inv).2 leaf) 0 (cellLists leaf.offsets)
      rw [hc] at this
      exact hcells (List.length_eq_zero.mp this.symm)
    rw [getLast?_eq_some_getLastD _ 0 hne, compactCells_snd_getLastD]
    simp [survivorsOf, leafSurvivors]

/-- C3 witness: the offset-consistency theorem at a concrete region. -/
theorem deleteFromGroups_offsets_consistency_witness :
    (deleteGroupsLeaf ["A"] false exLeaf).offsets.length = exLeaf.offsets.length
      ∧ List.Chain' (· ≤ ·) (deleteGroupsLeaf ["A"] false exLeaf).offsets
      ∧ (deleteGroupsLeaf ["A"] false exLeaf).offsets.getLast?
          = some (survivorsOf ["A"] false exLeaf).length :=
  deleteFromGroups_offsets_consistency ["A"] false exLeaf (by decide) (by decide)

/-- C4: Order preservation — on the main path the new store is, for
every attribute column and every group column, exactly the gather of the
old column at the surviving indices in destination order; that survivor
list is the in-order filter of the region's index sequence (cells in
fixed spatial order, ascending within each cell), hence a sublist of the
original index sequence: only removal, no reordering. -/
theorem deleteFromGroups_order_preservation {V : Type} [Inhabited V]
    (gs : List String) (inv : Bool) (leaf : Leaf V)
    (h1 : leafPointCount leaf ≠ 0) (h2 : survivorsOf gs inv leaf ≠ []) :
    (deleteGroupsLeaf gs inv leaf).attrs
        = leaf.attrs.map (fun col =>
            (survivorsOf gs inv leaf).map (fun j => col.getD j default))
      ∧ (deleteGroupsLeaf gs inv leaf).groups
        = leaf.groups.map (fun q =>
            (q.1, (survivorsOf gs inv leaf).map (fun j => q.2.getD j false)))
      ∧ survivorsOf gs inv leaf
          = (allIndices leaf).filter
              (multiGroupMatch (filterArgs gs inv).1 (filterArgs gs inv).2 leaf)
      ∧ (survivorsOf gs inv leaf).Sublist (allIndices leaf) := by
  rw [deleteGroupsLeaf_eq gs inv leaf h1 h2]
  refine ⟨rfl, rfl, leafSurvivors_eq_filter _ _ _, ?_⟩
  rw [survivorsOf, leafSurvivors_eq_filter]
  exact List.filter_sublist _

/-- C4 witness: the order-preservation theorem at a concrete region. -/
theorem deleteFromGroups_order_preservation_witness :
    (deleteGroupsLeaf ["A"] false exLeaf).attrs
        = exLeaf.attrs.map (fun col =>
            (survivorsOf ["A"] false exLeaf).map (fun j => col.getD j default))
      ∧ (deleteGroupsLeaf ["A"] false exLeaf).groups
        = exLeaf.groups.map (fun q =>
            (q.1, (survivorsOf ["A"] false exLeaf).map (fun j => q.2.getD j false)))
      ∧ survivorsOf ["A"] false exLeaf
          = (allIndices exLeaf).filter
              (multiGroupMatch (filterArgs ["A"] false).1 (filterArgs ["A"] false).2 exLeaf)
      ∧ (survivorsOf ["A"] false exLeaf).Sublist (allIndices exLeaf) :=
  deleteFromGroups_order_preservation ["A"] false exLeaf (by decide) (by decide)

/-- C5: Group metadata cleanup — after a non-inverted
`deleteFromGroups`, every requested group that was declared in the
structure's metadata is gone from the global group metadata; after an
inverted call the declared group metadata is unchanged (the groups
remain declared, possibly with zero members).  The removal is the
`dropGroups` step composed after the compaction of every region. -/
theorem deleteFromGroups_metadata_cleanup {V : Type} [Inhabited V]
    (t : PointDataTree V) (gs : List String) (g : String) (hne : t.leaves ≠ []) :
    (g ∈ gs → hasGroup t g = true → hasGroup (deleteFromGroups t gs false) g = false)
      ∧ (deleteFromGroups t gs true).descriptorGroups = t.descriptorGroups := by
  constructor
  · intro hg hhas
    have hl : t.leaves.isEmpty = false := by
      cases ht : t.leaves with
      | nil => exact absurd ht hne
      | cons a l => rfl
    have hmem : g ∈ gs.filter (fun x => hasGroup t x) :=
      List.mem_filter.mpr ⟨hg, hhas⟩
    have ha : (gs.filter (fun x => hasGroup t x)).isEmpty = false := by
      cases hf : gs.filter (fun x => hasGroup t x) with
      | nil => rw [hf] at hmem; exact absurd hmem (List.not_mem_nil g)
      | cons a l => rfl
    unfold deleteFromGroups
    simp only [hl, ha, Bool.false_eq_true, if_false]
    unfold dropGroups hasGroup
    have hnotmem : g ∉ t.descriptorGroups.filter
        (fun x => !(gs.filter (fun y => hasGroup t y)).contains x) := by
      intro hc
      have h2 := (List.mem_filter.mp hc).2
      rw [Bool.not_eq_true'] at h2
      have hcontains : (gs.filter (fun y => hasGroup t y)).contains g = true := by
        simpa using hmem
      rw [h2] at hcontains
      exact Bool.false_ne_true hcontains
    simpa [hasGroup] using hnotmem
  · unfold deleteFromGroups
    by_cases hl : t.leaves.isEmpty <;>
      by_cases ha : (gs.filter (fun x => hasGroup t x)).isEmpty <;>
        simp [hl, ha]

/-- C5 witness: the metadata-cleanup theorem at a concrete tree. -/
theorem deleteFromGroups_metadata_cleanup_witness :
    ("A" ∈ ["A"] → hasGroup exTree "A" = true →
        hasGroup (deleteFromGroups exTree ["A"] false) "A" = false)
      ∧ (deleteFromGroups exTree ["A"] true).descriptorGroups
          = exTree.descriptorGroups :=
  deleteFromGroups_metadata_cleanup exTree ["A"] "A" (by decide)

/-- C6: Silent no-op — when the tree has no leaves, or the requested
name list is empty, or none of the requested names is declared in the
group metadata, `deleteFromGroups` leaves the whole structure unchanged
(and, being total, signals no error). -/
theorem deleteFromGroups_silent_noop {V : Type} [Inhabited V]
    (t : PointDataTree V) (gs : List String) (inv : Bool)
    (h : t.leaves = [] ∨ gs = [] ∨ ∀ g ∈ gs, hasGroup t g = false) :
    deleteFromGroups t gs inv = t := by
  unfold deleteFromGroups
  rcases h with h | h | h
  · simp [h]
  · simp [h]
  · have hf : gs.filter (fun g => hasGroup t g) = [] :=
      List.filter_eq_nil_iff.mpr (fun a ha => by simp [h a ha])
    simp [hf]

/-- C6 witness: requesting a group that is not declared anywhere leaves
the concrete tree unchanged, for both invert values. -/
theorem deleteFromGroups_silent_noop_witness :
    deleteFromGroups exTree ["B"] false = exTree :=
  deleteFromGroups_silent_noop exTree ["B"] false
    (Or.inr (Or.inr (by decide)))

/-- C7: Per-region edge cases — a region with zero points is left
untouched; a region with points but no survivors has its attribute store
discarded via `clearAttributes` (all columns emptied, region empty), and
the offset-rebuild path is not taken for it. -/
theorem deleteGroupsLeaf_edge_cases {V : Type} [Inhabited V]
    (gs : List String) (inv : Bool) (leaf : Leaf V) :
    (leafPointCount leaf = 0 → deleteGroupsLeaf gs inv leaf = leaf)
      ∧ (leafPointCount leaf ≠ 0 → survivorsOf gs inv leaf = [] →
          deleteGroupsLeaf gs inv leaf = clearAttributes leaf) := by
  constructor
  · intro h
    unfold deleteGroupsLeaf
    rw [if_pos h]
  · intro h1 h2
    unfold deleteGroupsLeaf
    rw [if_neg h1, if_pos (by simpa [survivorsOf, List.length_eq_zero] using h2)]

/-- C7 witness: the edge-case theorem's two branches at concrete
regions — an empty region is untouched, a fully-deleted region is
cleared. -/
theorem deleteGroupsLeaf_edge_cases_witness :
    deleteGroupsLeaf ["A"] false
        ({ offsets := [0, 0], attrs := [[]], groups := [("A", [])] } : Leaf Nat)
      = ({ offsets := [0, 0], attrs := [[]], groups := [("A", [])] } : Leaf Nat)
      ∧ deleteGroupsLeaf ["A"] false exLeafAll = clearAttributes exLeafAll :=
  ⟨(deleteGroupsLeaf_edge_cases ["A"] false _).1 (by decide),
   (deleteGroupsLeaf_edge_cases ["A"] false exLeafAll).2 (by decide) (by decide)⟩

/-! ## Congruence helpers: the operation only consults the group-name
list through membership queries. -/

theorem any_congr {α : Type} {l₁ l₂ : List α} (p : α → Bool)
    (h : ∀ x, x ∈ l₁ ↔ x ∈ l₂) : l₁.any p = l₂.any p := by
  rw [Bool.eq_iff_iff, List.any_eq_true, List.any_eq_true]
  constructor <;> rintro ⟨x, hx, hpx⟩
  · exact ⟨x, (h x).mp hx, hpx⟩
  · exact ⟨x, (h x).mpr hx, hpx⟩

theorem all_congr {α : Type} {l₁ l₂ : List α} (p : α → Bool)
    (h : ∀ x, x ∈ l₁ ↔ x ∈ l₂) : l₁.all p = l₂.all p := by
  rw [Bool.eq_iff_iff, List.all_eq_true, List.all_eq_true]
  constructor <;> intro hall x hx
  · exact hall x ((h x).mpr hx)
  · exact hall x ((h x).mp hx)

theorem isEmpty_congr {α : Type} {l₁ l₂ : List α}
    (h : ∀ x, x ∈ l₁ ↔ x ∈ l₂) : l₁.isEmpty = l₂.isEmpty := by
  rw [Bool.eq_iff_iff, List.isEmpty_iff, List.isEmpty_iff,
    List.eq_nil_iff_forall_not_mem, List.eq_nil_iff_forall_not_mem]
  constructor <;> intro hall x hx
  · exact hall x ((h x).mpr hx)
  · exact hall x ((h x).mp hx)

theorem contains_congr {l₁ l₂ : List String}
    (h : ∀ x, x ∈ l₁ ↔ x ∈ l₂) (s : String) : l₁.contains s = l₂.contains s := by
  rw [Bool.eq_iff_iff]
  simp only [List.contains_eq_any_beq, List.any_eq_true]
  constructor <;> rintro ⟨x, hx, hpx⟩
  · exact ⟨x, (h x).mp hx, hpx⟩
  · exact ⟨x, (h x).mpr hx, hpx⟩

theorem multiGroupMatch_congr {V : Type} {incl₁ incl₂ excl₁ excl₂ : List String}
    (leaf : Leaf V) (hi : ∀ x, x ∈ incl₁ ↔ x ∈ incl₂)
    (he : ∀ x, x ∈ excl₁ ↔ x ∈ excl₂) :
    multiGroupMatch incl₁ excl₁ leaf = multiGroupMatch incl₂ excl₂ leaf := by
  funext i
  unfold multiGroupMatch
  rw [any_congr _ hi, all_congr _ he, isEmpty_congr hi]

theorem deleteGroupsLeaf_congr {V : Type} [Inhabited V] {gs₁ gs₂ : List String}
    (inv : Bool) (leaf : Leaf V) (h : ∀ x, x ∈ gs₁ ↔ x ∈ gs₂) :
    deleteGroupsLeaf gs₁ inv leaf = deleteGroupsLeaf gs₂ inv leaf := by
  have hm : multiGroupMatch (filterArgs gs₁ inv).1 (filterArgs gs₁ inv).2 leaf
      = multiGroupMatch (filterArgs gs₂ inv).1 (filterArgs gs₂ inv).2 leaf := by
    cases inv
    · exact multiGroupMatch_congr leaf (fun x => Iff.rfl) h
    · exact multiGroupMatch_congr leaf h (fun x => Iff.rfl)
  simp only [deleteGroupsLeaf, leafSurvivors, hm]

theorem dropGroups_congr {V : Type} (t : PointDataTree V) {n₁ n₂ : List String}
    (h : ∀ x, x ∈ n₁ ↔ x ∈ n₂) : dropGroups t n₁ = dropGroups t n₂ := by
  unfold dropGroups
  have hc : ∀ s, n₁.contains s = n₂.contains s := contains_congr h
  simp only [hc]

/-- C9: Duplicate tolerance — `deleteFromGroups` on any group-name list
produces exactly the same final structure (same surviving points and
same final group metadata) as the same call with duplicates removed: the
resolution, the filter and the metadata removal only consult the list
through membership. -/
theorem deleteFromGroups_duplicate_tolerance {V : Type} [Inhabited V]
    (t : PointDataTree V) (gs : List String) (inv : Bool) :
    deleteFromGroups t gs inv = deleteFromGroups t gs.dedup inv := by
  have hmem : ∀ x, x ∈ gs.filter (fun g => hasGroup t g)
      ↔ x ∈ gs.dedup.filter (fun g => hasGroup t g) := by
    intro x
    simp [List.mem_filter, List.mem_dedup]
  unfold deleteFromGroups
  by_cases hl : t.leaves.isEmpty
  · simp [hl]
  · rw [Bool.not_eq_true] at hl
    simp only [hl, Bool.false_eq_true, if_false]
    rw [isEmpty_congr hmem]
    by_cases ha : (gs.dedup.filter (fun g => hasGroup t g)).isEmpty
    · simp [ha]
    · rw [Bool.not_eq_true] at ha
      simp only [ha, Bool.false_eq_true, if_false]
      have hleaves : t.leaves.map (deleteGroupsLeaf (gs.filter (fun g => hasGroup t g)) inv)
          = t.leaves.map (deleteGroupsLeaf (gs.dedup.filter (fun g => hasGroup t g)) inv) :=
        List.map_congr_left (fun l _ => deleteGroupsLeaf_congr inv l hmem)
      rw [hleaves]
      cases inv
      · simp only [Bool.false_eq_true, if_false]
        exact dropGroups_congr _ hmem
      · rfl

theorem seqCompact_getElem? {V : Type} (f : Leaf V → Leaf V) (order : List Nat)
    (ls : List (Leaf V)) (h : order.Nodup) (j : Nat) :
    (seqCompact f order ls)[j]? = if j ∈ order then f <$> ls[j]? else ls[j]? := by
  induction order generalizing ls with
  | nil => simp [seqCompact]
  | cons i rest ih =>
    have hnd := List.nodup_cons.mp h
    simp only [seqCompact, List.foldl_cons] at *
    rw [ih (ls.modify f i) hnd.2, List.getElem?_modify]
    by_cases hj : j = i
    · subst hj
      rw [if_neg hnd.1, if_pos (List.mem_cons_self j rest)]
      cases ls[j]? <;> simp
    · by_cases hr : j ∈ rest
      · rw [if_pos hr, if_pos (List.mem_cons.mpr (Or.inr hr))]
        have : i ≠ j := fun hc => hj hc.symm
        cases ls[j]? <;> simp [this]
      · rw [if_neg hr,
          if_neg (fun hc => (List.mem_cons.mp hc).elim (fun he => hj he) hr)]
        have : i ≠ j := fun hc => hj hc.symm
        cases ls[j]? <;> simp [this]

/-- C10: Region-order independence — processing the regions one at a
time, in any order that visits every region exactly once, yields exactly
the leaf list that the parallel fan-out produces (the map of the
per-region operator over all leaves); each region's compaction reads and
writes only its own slot, with the group names and the invert flag as
shared read-only configuration. -/
theorem deleteFromGroups_order_independence {V : Type} [Inhabited V]
    (gs : List String) (inv : Bool) (ls : List (Leaf V)) (order : List Nat)
    (h : order.Perm (List.range ls.length)) :
    seqCompact (deleteGroupsLeaf gs inv) order ls
      = ls.map (deleteGroupsLeaf gs inv) := by
  have hnd : order.Nodup := h.symm.nodup (List.nodup_range ls.length)
  apply List.ext_getElem?
  intro j
  rw [seqCompact_getElem? _ _ _ hnd j, List.getElem?_map]
  have hmem : j ∈ order ↔ j < ls.length := by
    rw [h.mem_iff, List.mem_range]
  by_cases hj : j < ls.length
  · rw [if_pos (hmem.mpr hj)]
    rfl
  · rw [if_neg (fun hc => hj (hmem.mp hc))]
    rw [List.getElem?_eq_none (Nat.le_of_not_lt hj)]
    rfl

/-- C10 witness: processing the two concrete regions in reversed order
gives the same result as the parallel map. -/
theorem deleteFromGroups_order_independence_witness :
    seqCompact (deleteGroupsLeaf ["A"] false) [1, 0] [exLeaf, exLeafAll]
      = [exLeaf, exLeafAll].map (deleteGroupsLeaf ["A"] false) :=
  deleteFromGroups_order_independence ["A"] false [exLeaf, exLeafAll] [1, 0]
    (by decide)

end PointDelete
